import Mathlib

/-!
Verification development for the `obsidian-note-structure` repository
(`src/main.py` and `src/lambda.py`).

Modelling conventions:
* Python strings are Lean `String`s; every Python `str` operation that the
  source uses (`split`, `startswith`, `in`, `removesuffix`, `os.path.basename`,
  `os.path.dirname`, `int(...)`) is embedded as an executable function over the
  character list of the string, mirroring CPython semantics.
* `datetime.fromtimestamp` is modelled with a fixed zero-offset (UTC-like)
  local time zone; timestamps are integer Unix seconds.
* The working directory tree (the extracted vault) is modelled as a flat list
  of items, each item being a path (list of segments below the vault root)
  together with a node (regular file with content and stat data, or
  directory).  The order of the item list stands in for the otherwise
  unspecified `os.scandir` order that drives `os.walk`, `os.listdir` and
  `pathlib.Path.rglob` in the source.
* Fallible Python code (exceptions) is embedded with `Except` / result pairs;
  a pass that dies with an uncaught exception returns the mutated state it
  had reached together with the error.
-/

/-! ## Python string primitives (character-list based) -/

/-- Does `l` start with `p`?  (List-level `startswith`.) -/
def startsListWith : List Char → List Char → Bool
  | _, [] => true
  | [], _ :: _ => false
  | a :: as_, b :: bs => a = b && startsListWith as_ bs

/-- Python `needle in hay` for strings, at the character-list level. -/
def containsSub (needle : List Char) : List Char → Bool
  | [] => needle.isEmpty
  | c :: cs => startsListWith (c :: cs) needle || containsSub needle cs

/-- Python `s.startswith(p)`. -/
def pyStartsWith (s p : String) : Bool := startsListWith s.toList p.toList

/-- Python `needle in hay` (substring containment). -/
def pyIn (needle hay : String) : Bool := containsSub needle.toList hay.toList

/-- Helper for `pySplit`: split a character list on a single separator
character, Python `str.split(sep)` semantics (keeps empty pieces). -/
def splitChAux (sep : Char) : List Char → List (List Char)
  | [] => [[]]
  | c :: cs =>
    let r := splitChAux sep cs
    if c = sep then [] :: r
    else
      match r with
      | h :: t => (c :: h) :: t
      | [] => [[c]]

/-- Python `s.split(sep)` for a one-character separator `sep`. -/
def pySplit (sep : Char) (s : String) : List String :=
  (splitChAux sep s.toList).map (fun l => String.mk l)

/-- Python `"/".join(parts)` (specialised to the separators the source uses:
`os.path.join` on POSIX and `"/".join`). -/
def pyJoin : List String → String
  | [] => ""
  | [s] => s
  | s :: rest => s ++ "/" ++ pyJoin rest

/-- Split a character list on the two-character separator `"-W"`
(Python `str.split("-W")`, non-overlapping, left to right). -/
def splitDashW : List Char → List (List Char)
  | [] => [[]]
  | [c] => [[c]]
  | x :: y :: cs =>
    if x = '-' && y = 'W' then [] :: splitDashW cs
    else
      match splitDashW (y :: cs) with
      | h :: t => (x :: h) :: t
      | [] => [[x]]

/-- Python `s.split("-W")`. -/
def pySplitDashW (s : String) : List String :=
  (splitDashW s.toList).map (fun l => String.mk l)

/-- Does `l` end with `suf`? -/
def endsListWith (l suf : List Char) : Bool :=
  startsListWith l.reverse suf.reverse

/-- Python `s.endswith(suf)`. -/
def pyEndsWith (s suf : String) : Bool := endsListWith s.toList suf.toList

/-- Python `s.removesuffix(suf)`: drop `suf` when present, else unchanged. -/
def pyRemoveSuffix (s suf : String) : String :=
  if pyEndsWith s suf then String.mk (s.toList.take (s.toList.length - suf.toList.length))
  else s

/-- Python `os.path.basename` on POSIX: the part after the last `'/'`. -/
def pyBasename (p : String) : String := (pySplit '/' p).getLastD ""

/-- Strip trailing `'/'` characters from a character list. -/
def rstripSlash (l : List Char) : List Char :=
  (l.reverse.dropWhile (fun c => c = '/')).reverse

/-- Python `os.path.dirname` on POSIX: the part up to the last `'/'`,
with trailing slashes stripped unless the result is all slashes. -/
def pyDirname (p : String) : String :=
  let cs := p.toList
  match cs.reverse.findIdx? (fun c => c = '/') with
  | none => ""
  | some k =>
    let head := cs.take (cs.length - k)
    if head.all (fun c => c = '/') then String.mk head
    else String.mk (rstripSlash head)

/-- Decimal digits of a character list, as a number (`foldl`). -/
def digitsVal (l : List Char) : Nat :=
  l.foldl (fun acc c => acc * 10 + (c.toNat - 48)) 0

/-- Python `int(s)` restricted to the plain non-negative decimal strings the
source can feed it; everything else is a `ValueError` (`none`). -/
def pyParseNat (s : String) : Option Nat :=
  if s.toList ≠ [] && s.toList.all Char.isDigit then some (digitsVal s.toList)
  else none

/-! ## Calendar arithmetic (proleptic Gregorian, Unix epoch based) -/

/-- Is `y` a leap year? -/
def isLeap (y : Int) : Bool :=
  (y % 4 = 0 && y % 100 ≠ 0) || y % 400 = 0

/-- Civil date (year, month, day) from a count of days since 1970-01-01
(Howard Hinnant's `civil_from_days`). -/
def civilFromDays (z0 : Int) : Int × Nat × Nat :=
  let z := z0 + 719468
  let era := Int.fdiv z 146097
  let doe := (z - era * 146097).toNat
  let yoe := (doe - doe / 1460 + doe / 36524 - doe / 146096) / 365
  let y : Int := (yoe : Int) + era * 400
  let doy := doe - (365 * yoe + yoe / 4 - yoe / 100)
  let mp := (5 * doy + 2) / 153
  let d := doy - (153 * mp + 2) / 5 + 1
  let m := if mp < 10 then mp + 3 else mp - 9
  (if m ≤ 2 then y + 1 else y, m, d)

/-- Days since 1970-01-01 of a civil date (Howard Hinnant's
`days_from_civil`). -/
def daysFromCivil (y0 : Int) (m d : Nat) : Int :=
  let y := if m ≤ 2 then y0 - 1 else y0
  let era := Int.fdiv y 400
  let yoe := (y - era * 400).toNat
  let mp := if 2 < m then m - 3 else m + 9
  let doy := (153 * mp + 2) / 5 + d - 1
  let doe := yoe * 365 + yoe / 4 - yoe / 100 + doy
  era * 146097 + (doe : Int) - 719468

/-- Day of the week with Monday = 0 (Python `date.weekday()` convention);
1970-01-01 was a Thursday. -/
def weekdayMon0 (y : Int) (m d : Nat) : Nat :=
  ((daysFromCivil y m d + 3).emod 7).toNat

/-- Zero-pad a number to two digits. -/
def pad2 (n : Nat) : String := if n < 10 then "0" ++ toString n else toString n

/-- Format a civil date as `YYYY-MM-DD` (Python `strftime("%Y-%m-%d")` for the
years involved here). -/
def fmtYmd (y : Int) (m d : Nat) : String :=
  toString y ++ "-" ++ pad2 m ++ "-" ++ pad2 d

/-- The civil date of a Unix timestamp (zero-offset local time). -/
def tsCivil (ts : Int) : Int × Nat × Nat := civilFromDays (Int.fdiv ts 86400)

/-- `datetime.fromtimestamp(ts).year`. -/
def tsYear (ts : Int) : Int := (tsCivil ts).1

/-- `datetime.fromtimestamp(ts).strftime("%Y-%m-%d")`. -/
def tsDateStr (ts : Int) : String :=
  match tsCivil ts with
  | (y, m, d) => fmtYmd y m d

/-- `datetime.fromtimestamp(ts).strftime("%Y-%m-%d %H:%M:%S")`. -/
def tsDateTimeStr (ts : Int) : String :=
  let tod := (ts.emod 86400).toNat
  tsDateStr ts ++ " " ++ pad2 (tod / 3600) ++ ":" ++ pad2 (tod / 60 % 60) ++ ":" ++ pad2 (tod % 60)

/-- Minimum of a list of timestamps (`min` over the corresponding
`datetime` values: datetimes compare like their timestamps). -/
def minTs : List Int → Option Int
  | [] => none
  | t :: ts => some (ts.foldl min t)

/-! ## Python exceptions -/

/-- The uncaught Python exceptions the embedded code can die with. -/
inductive PyErr where
  /-- `IndexError` (sequence index out of range). -/
  | indexError
  /-- `AttributeError` (missing attribute, e.g. `.year` on a tuple or a
  missing `st_birthtime`). -/
  | attrError
  /-- `ValueError` (failed unpacking / `int()` / `strptime` / `min([])`). -/
  | valueError
  /-- `NotADirectoryError` (`os.listdir` on a regular file). -/
  | notADirError
  /-- A failed `open(..., "w")` / `json.dump` while writing a JSON sibling. -/
  | writeError
deriving DecidableEq, Repr

/-! ## DateInferencer: `get_note_creation_date`

Tier 1 (front matter) and tier 2 (periodic paths) are character-identical in
`src/main.py` (lines 29-67) and `src/lambda.py` (lines 30-68) and are embedded
once; tier 3 (filesystem timestamps) differs between the two files and is
embedded separately for each. -/

/-- Tier 1: the front-matter scan.
`none` means "fall through to the next tier" (content does not start with
`---`, or no line starts with `date:`); `some r` is an early return or an
uncaught exception.  Source: `if content.startswith("---"): ... for line in
lines: if line.startswith("date:"): return line.split(" ")[1]`. -/
def fmDate (content : String) : Option (Except PyErr String) :=
  if pyStartsWith content "---" then
    match (pySplit '\n' content).find? (fun line => pyStartsWith line "date:") with
    | some line =>
      match (pySplit ' ' line).get? 1 with
      | some tok => some (.ok tok)
      | none => some (.error .indexError)
    | none => none
  else none

/-- The `%Y-W%W-%w` computation of
`datetime.strptime(f"{year}-W{week}-1", "%Y-W%W-%w")` followed by
`strftime("%Y-%m-%d")`, for weekday `%w = 1` (Monday).

CPython `_strptime`: `%Y` matches exactly four digits, `%W` matches a week
number 0..53; the date is Jan 1 of the year advanced to the requested week
(weeks starting on Monday; week 0 holds the days before the first Monday)
and weekday, via `_calc_julian_from_U_or_W`, with the `julian <= 0`
fix-up into the previous year. -/
def strptimeYWwMonday (yearStr : String) (week : Nat) : Except PyErr String :=
  if yearStr.toList.length = 4 && yearStr.toList.all Char.isDigit && week ≤ 53 then
    let y : Int := (digitsVal yearStr.toList : Int)
    let firstWeekday : Int := (weekdayMon0 y 1 1 : Int)
    let julian : Int :=
      if week = 0 then 1 + 0 - firstWeekday
      else 1 + (((7 - firstWeekday).emod 7) + 7 * ((week : Int) - 1)) + 0
    let yj : Int × Int :=
      if julian ≤ 0 then (y - 1, julian + (if isLeap (y - 1) then 366 else 365))
      else (y, julian)
    match civilFromDays (daysFromCivil yj.1 1 1 + (yj.2 - 1)) with
    | (ry, rm, rd) => .ok (fmtYmd ry rm rd)
  else .error .valueError

/-- The `"/Weekly Notes/"` branch: `year, week = fname.removesuffix(".md").split("-W")`,
`week = int(week)`, then the `%Y-W%W-%w` parse. -/
def weeklyDate (fname : String) : Except PyErr String :=
  match pySplitDashW (pyRemoveSuffix fname ".md") with
  | [yearStr, weekStr] =>
    match pyParseNat weekStr with
    | some week => strptimeYWwMonday yearStr week
    | none => .error .valueError
  | _ => .error .valueError

/-- Tier 2: the periodic-path conventions (source lines 37-67 of both files).
`none` means "fall through to the timestamp tier". -/
def periodicDate (noteFile : String) : Option (Except PyErr String) :=
  if pyIn "/Periodic/" noteFile then
    let fname := pyBasename noteFile
    if pyIn "/Daily Notes/" noteFile then
      some (.ok ((pySplit ' ' fname).headD ""))
    else if pyIn "/Weekly Notes/" noteFile then
      some (weeklyDate fname)
    else if pyIn "/Monthly Notes/" noteFile then
      some (.ok (pyRemoveSuffix fname ".md" ++ "-01"))
    else if pyIn "/Yearly Notes/" noteFile then
      some (.ok (pyRemoveSuffix fname ".md" ++ "-01-01"))
    else none
  else none

/-- File stat data: `st_ctime`, `st_mtime`, `st_atime` and the
platform-dependent `st_birthtime` (absent when the attribute does not
exist). -/
structure Stat where
  ctime : Int
  mtime : Int
  atime : Int
  birthtime : Option Int
deriving DecidableEq, Repr

/-- Tier 3 as written in `src/lambda.py` (lines 70-88).  When
`st_birthtime` is retrievable the source builds
`birthtime = (datetime.fromtimestamp(stats.st_birthtime),)` — a one-element
tuple, because of the trailing comma — so the list comprehension
`[d for d in dates if d.year > 1990]` evaluates `.year` on a tuple and dies
with `AttributeError`.  When it is not retrievable, the `except` branch
substitutes `datetime.fromtimestamp(1)` (Unix epoch + 1 s), which the
`> 1990` filter then discards.  `min([])` raises `ValueError`. -/
def lambdaStatsDate (st : Stat) : Except PyErr String :=
  match st.birthtime with
  | some _ => .error .attrError
  | none =>
    let dates : List Int := [st.ctime, st.mtime, st.atime, 1]
    match minTs (dates.filter (fun t => 1990 < tsYear t)) with
    | some t => .ok (tsDateStr t)
    | none => .error .valueError

/-- Tier 3 as written in `src/main.py` (lines 71-80): `stats.st_birthtime` is
accessed with no `try`/`except`, so a platform without it raises
`AttributeError`; there is no sentinel substitution. -/
def mainStatsDate (st : Stat) : Except PyErr String :=
  match st.birthtime with
  | none => .error .attrError
  | some b =>
    let dates : List Int := [st.ctime, st.mtime, st.atime, b]
    match minTs (dates.filter (fun t => 1990 < tsYear t)) with
    | some t => .ok (tsDateStr t)
    | none => .error .valueError

/-- `get_note_creation_date` of `src/lambda.py` (the note's content has
already been read; reading is modelled as succeeding). -/
def lambdaGncd (noteFile content : String) (st : Stat) : Except PyErr String :=
  match fmDate content with
  | some r => r
  | none =>
    match periodicDate noteFile with
    | some r => r
    | none => lambdaStatsDate st

/-- `get_note_creation_date` of `src/main.py`. -/
def mainGncd (noteFile content : String) (st : Stat) : Except PyErr String :=
  match fmDate content with
  | some r => r
  | none =>
    match periodicDate noteFile with
    | some r => r
    | none => mainStatsDate st

/-! ## NoteTransformer: `note_to_json` -/

/-- The structured record `note_to_json` builds (its Python dict, in
insertion order). -/
structure NoteRecord where
  title : String
  created_date : String
  modified_date : String
  modified_time : String
  path : String
  folder : String
  content : String
deriving DecidableEq, Repr

/-- `src/lambda.py` line 94: `path = "/".join(note_file.split("/")[1:-1])`
("everything except the final file and the vault"). -/
def lambdaNotePath (noteFile : String) : String :=
  pyJoin (((pySplit '/' noteFile).drop 1).dropLast)

/-- `src/lambda.py` line 96: `folder = path.split("/")[-1]`. -/
def lambdaNoteFolder (noteFile : String) : String :=
  (pySplit '/' (lambdaNotePath noteFile)).getLastD ""

/-- `src/main.py` line 85: `path = os.path.dirname(note_file).split("/")[-1]`. -/
def mainNotePath (noteFile : String) : String :=
  (pySplit '/' (pyDirname noteFile)).getLastD ""

/-- `src/main.py` line 86: `folder = os.path.dirname(path).split("/")[-1]`. -/
def mainNoteFolder (noteFile : String) : String :=
  (pySplit '/' (pyDirname (mainNotePath noteFile))).getLastD ""

/-- `note_to_json` of `src/lambda.py` (lines 91-113).  The stat and content
reads are modelled as succeeding; `get_note_creation_date` may raise, in
which case no record is produced. -/
def lambdaNoteToJson (noteFile content : String) (st : Stat) : Except PyErr NoteRecord := do
  let cd ← lambdaGncd noteFile content st
  .ok { title := pyRemoveSuffix (pyBasename noteFile) ".md"
        created_date := cd
        modified_date := tsDateStr st.mtime
        modified_time := tsDateTimeStr st.mtime
        path := lambdaNotePath noteFile
        folder := lambdaNoteFolder noteFile
        content := content }

/-- `note_to_json` of `src/main.py` (lines 83-103). -/
def mainNoteToJson (noteFile content : String) (st : Stat) : Except PyErr NoteRecord := do
  let cd ← mainGncd noteFile content st
  .ok { title := pyRemoveSuffix (pyBasename noteFile) ".md"
        created_date := cd
        modified_date := tsDateStr st.mtime
        modified_time := tsDateTimeStr st.mtime
        path := mainNotePath noteFile
        folder := mainNoteFolder noteFile
        content := content }

/-- JSON string escaping as `json.dump` performs it for the characters that
can occur here (backslash, quote, newline; other characters pass through). -/
def jsonEscape (s : String) : String :=
  String.mk (s.toList.foldr
    (fun c acc =>
      if c = '\\' then '\\' :: '\\' :: acc
      else if c = '"' then '\\' :: '"' :: acc
      else if c = '\n' then '\\' :: 'n' :: acc
      else c :: acc) [])

/-- One key-value pair of the dumped JSON object. -/
def jsonKV (k v : String) : String := "\"" ++ k ++ "\": \"" ++ jsonEscape v ++ "\""

/-- `json.dump(data, f)` output for a `NoteRecord` dict (keys in insertion
order, default separators). -/
def encodeRecord (r : NoteRecord) : String :=
  "\x7b" ++ jsonKV "title" r.title ++ ", " ++ jsonKV "created_date" r.created_date ++ ", "
    ++ jsonKV "modified_date" r.modified_date ++ ", " ++ jsonKV "modified_time" r.modified_time
    ++ ", " ++ jsonKV "path" r.path ++ ", " ++ jsonKV "folder" r.folder ++ ", "
    ++ jsonKV "content" r.content ++ "\x7d"

/-! ## The working tree (extracted vault) and the three passes

A vault is a flat list of items; an item's `path` is its list of name
segments below the vault root.  Well-formed trees (the only ones a real
extraction produces) have distinct paths and every ancestor present as a
directory; theorems state any such hypotheses explicitly. -/

/-- Path below the vault root, as a list of segments. -/
abbrev FPath := List String

/-- A node: regular file (content + stat) or directory. -/
inductive Node where
  | file (content : String) (st : Stat)
  | dir
deriving DecidableEq, Repr

/-- An item of the working tree. -/
structure Item where
  path : FPath
  node : Node
deriving DecidableEq, Repr

/-- The working tree. -/
abbrev FS := List Item

/-- Names of the entries directly inside directory `p` (`os.listdir`),
in item order. -/
def childNames (fs : FS) (p : FPath) : List String :=
  fs.filterMap fun it =>
    if it.path.dropLast = p ∧ it.path ≠ [] then some (it.path.getLastD "") else none

/-- `dir.startswith(".") or dir.startswith("_")` (prune pass, both files). -/
def badDirName (s : String) : Bool := pyStartsWith s "." || pyStartsWith s "_"

/-- Survival of one item under the prune walk (`main.py` 113-119,
`lambda.py` 156-162): the walk `rmtree`s every directory whose name starts
with `.` or `_` (removing its whole subtree, which the walk then silently
skips) and `os.remove`s every file not ending in `.md`.  Hence a file
survives iff its own name ends in `.md` and no directory on its path is
dot/underscore-prefixed; a directory survives iff neither it nor an
ancestor is dot/underscore-prefixed. -/
def pruneKeep (it : Item) : Bool :=
  match it.node with
  | .file _ _ =>
    pyEndsWith (it.path.getLastD "") ".md" && it.path.dropLast.all (fun s => !badDirName s)
  | .dir => it.path.all (fun s => !badDirName s)

/-- The prune pass (character-identical in both source files). -/
def pruneFS (fs : FS) : FS := fs.filter pruneKeep

/-- Snapshot of the remaining notes, in walk order (our item order stands in
for the unspecified `os.walk` order). -/
def mdNotes (fs : FS) : List Item :=
  fs.filter fun it =>
    match it.node with
    | .file _ _ => pyEndsWith (it.path.getLastD "") ".md"
    | .dir => false

/-- `json_file = note.removesuffix(".md") + ".json"`: the sibling path. -/
def jsonSiblingPath (p : FPath) : FPath :=
  p.dropLast ++ [pyRemoveSuffix (p.getLastD "") ".md" ++ ".json"]

/-- Create or overwrite the file at `p` (`open(json_file, "w")` +
`json.dump`); an overwrite keeps the directory position, a creation appends. -/
def upsertFile (fs : FS) (p : FPath) (content : String) (st : Stat) : FS :=
  if fs.any (fun it => decide (it.path = p)) then
    fs.map (fun it => if it.path = p then ⟨p, .file content st⟩ else it)
  else fs ++ [⟨p, .file content st⟩]

/-- `os.remove` / a single-path deletion. -/
def removeAt (fs : FS) (p : FPath) : FS :=
  fs.filter (fun it => decide (it.path ≠ p))

/-- The type of an embedded `note_to_json`. -/
def NtjFun := String → String → Stat → Except PyErr NoteRecord

/-- The body of the convert loop for one note (`lambda.py` 170-177,
`main.py` 127-134): build the record (any exception aborts with the tree
unchanged), write the JSON sibling (a failed write aborts before the note is
deleted; the write oracle `writeOk` says which `open`/`json.dump` calls
succeed), then `os.remove` the note. The fresh JSON file's stat is modelled
by reusing the note's stat (it is never read again). -/
def convertNote (ntj : NtjFun) (writeOk : String → Bool) (rootName : String)
    (fs : FS) (p : FPath) (content : String) (st : Stat) : Except PyErr FS :=
  let noteStr := pyJoin (rootName :: p)
  match ntj noteStr content st with
  | .error e => .error e
  | .ok r =>
    if writeOk noteStr then
      .ok (removeAt (upsertFile fs (jsonSiblingPath p) (encodeRecord r) st) p)
    else .error .writeError

/-- The convert walk over the snapshot of notes; an uncaught exception stops
the walk, returning the tree state reached so far. -/
def convertGo (ntj : NtjFun) (writeOk : String → Bool) (rootName : String) :
    FS → List Item → FS × Option PyErr
  | fs, [] => (fs, none)
  | fs, it :: rest =>
    match it.node with
    | .dir => convertGo ntj writeOk rootName fs rest
    | .file c st =>
      match convertNote ntj writeOk rootName fs it.path c st with
      | .error e => (fs, some e)
      | .ok fs' => convertGo ntj writeOk rootName fs' rest

/-- The convert pass (`main.py` 121-134, `lambda.py` 164-177; the loop skeleton
is character-identical, the two files differ in which `note_to_json` it calls
and in the vault root prefix of the note paths). -/
def convertFS (ntj : NtjFun) (writeOk : String → Bool) (rootName : String)
    (fs : FS) : FS × Option PyErr :=
  convertGo ntj writeOk rootName fs (mdNotes fs)

/-- Does the name contain a dot (the `"*.*"` pattern of `rglob`)? -/
def dotted (s : String) : Bool := s.toList.contains '.'

/-- `list(pathlib.Path(folder).rglob("*.*"))` (`lambda.py` 187): the paths of
all proper descendants of `p` (files and directories alike) whose final name
contains a dot, in item order. -/
def rglobDotted (fs : FS) (p : FPath) : List FPath :=
  fs.filterMap fun it =>
    if decide (p <+: it.path ∧ p ≠ it.path ∧ dotted (it.path.getLastD "") = true)
    then some it.path else none

/-- Relocate the subtree rooted at `src` to `dst` (`os.rename` inside
`shutil.move`). -/
def moveSubtree (fs : FS) (src dst : FPath) : FS :=
  fs.map fun it =>
    if src <+: it.path then ⟨dst ++ it.path.drop src.length, it.node⟩ else it

/-- `try: shutil.move(file, folder) except: pass` (`lambda.py` 189-194),
guarded by `if file.parent != pathlib.Path(vault)`.  `shutil.move` into a
directory raises `shutil.Error` when `folder/<basename>` already exists (so a
name collision, or a source that is already a direct child of `folder`, is
skipped), and raises `FileNotFoundError` when the source vanished because an
enclosing directory was already moved; every exception is swallowed. -/
def tryMove (fs : FS) (src : FPath) (folder : String) : FS :=
  if src.length ≤ 1 then fs
  else if !(fs.any fun it => decide (it.path = src)) then fs
  else
    let base := src.getLastD ""
    if fs.any (fun it => decide (it.path = [folder, base])) then fs
    else moveSubtree fs src [folder, base]

/-- `dirs = [d for d in os.listdir(folder) if os.path.isdir(...)]` followed by
`shutil.rmtree` of each (`lambda.py` 196-200): every directory child of
`folder` is removed together with everything beneath it. -/
def cleanFolder (fs : FS) (folder : String) : FS :=
  fs.filter fun it =>
    !(fs.any fun jt =>
      decide (jt.node = Node.dir ∧ jt.path.length = 2 ∧ jt.path.headD "" = folder ∧
        jt.path <+: it.path))

/-- The collapse loop over the snapshot of first-level names (`lambda.py`
179-200).  For a directory: collect the dotted descendants, try to move each
into the first-level folder, then delete every directory child.  For a
first-level regular file: `rglob` yields nothing, but `os.listdir(folder)`
then raises `NotADirectoryError`, killing the whole pass. -/
def collapseGo : List String → FS → FS × Option PyErr
  | [], fs => (fs, none)
  | n :: rest, fs =>
    if fs.any (fun it => decide (it.path = [n] ∧ it.node = Node.dir)) then
      let moved := (rglobDotted fs [n]).foldl (fun acc p => tryMove acc p n) fs
      collapseGo rest (cleanFolder moved n)
    else if fs.any (fun it => decide (it.path = [n] ∧ it.node ≠ Node.dir)) then
      (fs, some .notADirError)
    else collapseGo rest fs

/-- The collapse pass (`lambda.py` 179-200; `src/main.py` has no counterpart). -/
def collapseFS (fs : FS) : FS × Option PyErr :=
  collapseGo (childNames fs []) fs

/-- Write oracle of a run in which every JSON write succeeds. -/
def alwaysOk : String → Bool := fun _ => true

/-- `main()` of `src/main.py` (lines 106-134): after extraction, the prune
walk then the convert walk, with `vault = "vault"`; no collapse pass. -/
def mainPipeline (fs : FS) : FS × Option PyErr :=
  convertFS mainNoteToJson alwaysOk "vault" (pruneFS fs)

/-- `lambda_handler` of `src/lambda.py` (lines 152-200), between extraction
and upload: prune walk, convert walk (vault root `/tmp/vault`), collapse
pass. -/
def lambdaPipeline (fs : FS) : FS × Option PyErr :=
  match convertFS lambdaNoteToJson alwaysOk "/tmp/vault" (pruneFS fs) with
  | (fs1, some e) => (fs1, some e)
  | (fs1, none) => collapseFS fs1

/-! ## Specification-side definitions (for comparing code against the spec's
words; these are not translations of the source) -/

/-- Split a character list at every character satisfying `p` (keeping empty
pieces). -/
def splitPredAux (p : Char → Bool) : List Char → List (List Char)
  | [] => [[]]
  | c :: cs =>
    let r := splitPredAux p cs
    if p c then [] :: r
    else
      match r with
      | h :: t => (c :: h) :: t
      | [] => [[c]]

/-- The whitespace-separated tokens of a string, in the spec's sense
("the second whitespace-separated token on that line"): maximal non-empty
runs of non-whitespace characters. -/
def wsTokens (s : String) : List String :=
  ((splitPredAux Char.isWhitespace s.toList).filter (fun l => l ≠ [])).map
    (fun l => String.mk l)

/-- Number of ISO 8601 weeks in year `y` (53 when Jan 1 is a Thursday, or
Jan 1 of a leap year is a Wednesday; else 52). -/
def isoWeeksInYear (y : Int) : Int :=
  if weekdayMon0 y 1 1 = 3 ∨ (isLeap y ∧ weekdayMon0 y 1 1 = 2) then 53 else 52

/-- ISO 8601 week-numbering (year, week) of a civil date. -/
def isoWeek (y : Int) (m d : Nat) : Int × Int :=
  let wd : Int := (weekdayMon0 y m d : Int) + 1
  let yday : Int := daysFromCivil y m d - daysFromCivil y 1 1 + 1
  let w := Int.fdiv (yday - wd + 10) 7
  if w < 1 then (y - 1, isoWeeksInYear (y - 1))
  else if isoWeeksInYear y < w then (y + 1, 1)
  else (y, w)

/-! ## Concrete inputs used by the witnesses and counterexamples -/

/-- A stat with all three plain timestamps on 2021-07-11 and no retrievable
birth time. -/
def stNoBirth : Stat := ⟨1626000000, 1626000000, 1626000000, none⟩

/-- Front-matter content with a well-formed `date:` line. -/
def fmContent : String := "---" ++ "\n" ++ "date: 2021-07-23" ++ "\n" ++ "body"

/-- The extracted tree of the entry-point comparison: one note nested two
levels deep. -/
def exPipeFS : FS :=
  [⟨["A"], .dir⟩, ⟨["A", "sub"], .dir⟩, ⟨["A", "sub", "y.md"], .file fmContent stNoBirth⟩]

/-- Collapse-pass input of the spec's own example: `root/A/x.md` and
`root/A/sub/y.md`, no name collision. -/
def exNoCollision : FS :=
  [⟨["A"], .dir⟩, ⟨["A", "x.md"], .file "cx" stNoBirth⟩, ⟨["A", "sub"], .dir⟩,
    ⟨["A", "sub", "y.md"], .file "cy" stNoBirth⟩]

/-- Collapse-pass input with a name collision: `A/x.json` exists both as a
direct child and nested under `A/sub`. -/
def exCollision : FS :=
  [⟨["A"], .dir⟩, ⟨["A", "x.json"], .file "top copy" stNoBirth⟩, ⟨["A", "sub"], .dir⟩,
    ⟨["A", "sub", "x.json"], .file "nested copy" stNoBirth⟩]

/-- Convert-pass input whose first note has a `date:` line with no second
token and whose second note is well-formed. -/
def exBadThenGood : FS :=
  [⟨["a.md"], .file ("---" ++ "\n" ++ "date:") stNoBirth⟩,
    ⟨["b.md"], .file fmContent stNoBirth⟩]

/-- Every depth-one item of the tree is a directory (no regular file sits
directly at the vault root). -/
def dirsAtTop (fs : FS) : Prop :=
  ∀ it ∈ fs, it.path.length = 1 → it.node = Node.dir

/-- Ancestor closure: every proper non-empty prefix of an item's path is
itself present as a directory item (true of any tree produced by a real
extraction). -/
def ancClosed (fs : FS) : Prop :=
  ∀ it ∈ fs, ∀ k ∈ List.range it.path.length, 0 < k →
    ∃ jt ∈ fs, jt.path = it.path.take k ∧ jt.node = Node.dir

instance (fs : FS) : Decidable (dirsAtTop fs) := by
  unfold dirsAtTop
  infer_instance

instance (fs : FS) : Decidable (ancClosed fs) := by
  unfold ancClosed
  infer_instance

deriving instance DecidableEq for Except

/-! ## C10: missing second token on a `date:` line -/

/-- C10 (confirmed): date inference is not total on notes with a front-matter
marker.  For the note content consisting of `---`, a newline and the bare line
`date:`, the extraction `line.split(" ")[1]` is out of bounds and both
embedded `get_note_creation_date`s die with `IndexError` — they neither
return a date nor fall through to the periodic tier, even though the note's
path (a Daily-Notes path) would have produced `2021-07-23` there.  The same
happens for a spaceless `date:2021-07-23` line. -/
theorem C10_index_error :
    lambdaGncd "/tmp/vault/Periodic/Daily Notes/2021-07-23 (Friday).md"
        ("---" ++ "\n" ++ "date:") stNoBirth = .error .indexError ∧
    mainGncd "vault/Periodic/Daily Notes/2021-07-23 (Friday).md"
        ("---" ++ "\n" ++ "date:") stNoBirth = .error .indexError ∧
    (pySplit ' ' "date:").get? 1 = none ∧
    periodicDate "vault/Periodic/Daily Notes/2021-07-23 (Friday).md" =
      some (.ok "2021-07-23") ∧
    mainGncd "vault/A/x.md" ("---" ++ "\n" ++ "date:2021-07-23") stNoBirth =
      .error .indexError := by
  refine ⟨by decide, by decide, by decide, by decide, by decide⟩

/-! ## C6: weekly periodic notes -/

/-- C6 (confirmed): for a note with no front-matter date (the front-matter
tier yields nothing) whose path contains the `/Periodic/` and
`/Weekly Notes/` segments (and not `/Daily Notes/`, which the source checks
first) and whose filename is `2023-W29.md`, both embedded
`get_note_creation_date`s return `2023-07-17` — which is indeed the Monday
(`weekdayMon0 = 0`) of ISO week 29 of 2023 — via the `%Y-W%W-%w`
week-number parse. -/
theorem C6_weekly_note (noteFile content : String) (st : Stat)
    (hfm : fmDate content = none)
    (hp : pyIn "/Periodic/" noteFile = true)
    (hd : pyIn "/Daily Notes/" noteFile = false)
    (hw : pyIn "/Weekly Notes/" noteFile = true)
    (hb : pyBasename noteFile = "2023-W29.md") :
    lambdaGncd noteFile content st = .ok "2023-07-17" ∧
    mainGncd noteFile content st = .ok "2023-07-17" ∧
    isoWeek 2023 7 17 = (2023, 29) ∧ weekdayMon0 2023 7 17 = 0 := by
  have hper : periodicDate noteFile = some (weeklyDate "2023-W29.md") := by
    unfold periodicDate
    rw [hb, hp, hd, hw]
    simp
  have hval : weeklyDate "2023-W29.md" = .ok "2023-07-17" := by decide
  refine ⟨?_, ?_, by decide, by decide⟩
  · unfold lambdaGncd
    rw [hfm, hper, hval]
  · unfold mainGncd
    rw [hfm, hper, hval]

/-- Witness for `C6_weekly_note` at a concrete path and content. -/
theorem C6_weekly_note_witness :
    lambdaGncd "/tmp/vault/Periodic/Weekly Notes/2023-W29.md" "no front matter"
      stNoBirth = .ok "2023-07-17" :=
  (C6_weekly_note "/tmp/vault/Periodic/Weekly Notes/2023-W29.md" "no front matter"
    stNoBirth (by decide) (by decide) (by decide) (by decide) (by decide)).1

/-! ## C5: the timestamp fallback tier -/

/-- C5 (code bug): the claim describes the intended timestamp fallback
(collect ctime/mtime/atime/birthtime with an epoch+1 s sentinel for a missing
birthtime, discard years ≤ 1990, return the earliest), and the claim's own
example works in `src/lambda.py` when the birthtime is missing: with
timestamps ctime = 1985-06-01, mtime = 2021-07-11, atime = 2022-06-23 and no
birthtime, the result is the 2021 value.  But the code deviates from the
claim on both sides: `src/lambda.py` line 76 builds the retrievable birthtime
as a one-element tuple (`(datetime.fromtimestamp(stats.st_birthtime),)`), so
whenever the birthtime IS retrievable the year filter evaluates `.year` on a
tuple and dies with `AttributeError`; and `src/main.py` line 76 reads
`stats.st_birthtime` with no fallback at all, so the claim's very example
(missing birth-time) dies with `AttributeError` there instead of using the
sentinel. -/
theorem C5_timestamp_fallback :
    lambdaGncd "/tmp/vault/Stuff/x.md" "no front matter"
        ⟨486432000, 1626000000, 1656000000, none⟩ = .ok "2021-07-11" ∧
    lambdaGncd "/tmp/vault/Stuff/x.md" "no front matter"
        ⟨486432000, 1626000000, 1656000000, some 486432000⟩ = .error .attrError ∧
    mainGncd "vault/Stuff/x.md" "no front matter"
        ⟨486432000, 1626000000, 1656000000, none⟩ = .error .attrError ∧
    mainGncd "vault/Stuff/x.md" "no front matter"
        ⟨486432000, 1626000000, 1656000000, some 486432000⟩ = .ok "2021-07-11" ∧
    tsYear 486432000 = 1985 ∧ tsYear 1626000000 = 2021 ∧ tsYear 1656000000 = 2022 ∧
    tsDateStr 1626000000 = "2021-07-11" := by
  refine ⟨by decide, by decide, by decide, by decide, by decide, by decide, by decide, by decide⟩

/-! ## C7: the front-matter `date:` token -/

/-- C7 (counterexample): the claim says the second *whitespace-separated*
token of the first `date:` line is returned.  For the content `---`, newline,
`date:  2021-07-23` (two spaces), the second whitespace-separated token of
that line is `2021-07-23`, but `line.split(" ")[1]` — a split on every single
space character, keeping empty pieces — returns the empty string. -/
theorem C7_counterexample :
    lambdaGncd "vault/A/x.md" ("---" ++ "\n" ++ "date:  2021-07-23") stNoBirth = .ok "" ∧
    mainGncd "vault/A/x.md" ("---" ++ "\n" ++ "date:  2021-07-23") stNoBirth = .ok "" ∧
    wsTokens "date:  2021-07-23" = ["date:", "2021-07-23"] ∧
    ("" = "2021-07-23" → False) := by
  refine ⟨by decide, by decide, by decide, by decide⟩

/-- C7 (amended): when the note's content starts with `---` and its first
line beginning with `date:` has at least two single-space-separated pieces,
both embedded `get_note_creation_date`s return piece index 1 — the substring
between the first space and the second space (or the line end) — verbatim,
regardless of the note's path and of its filesystem timestamps. -/
theorem C7_amended (noteFile content line tok : String) (st : Stat)
    (h1 : pyStartsWith content "---" = true)
    (h2 : (pySplit '\n' content).find? (fun l => pyStartsWith l "date:") = some line)
    (h3 : (pySplit ' ' line)[1]? = some tok) :
    lambdaGncd noteFile content st = .ok tok ∧ mainGncd noteFile content st = .ok tok := by
  have hfm : fmDate content = some (.ok tok) := by
    unfold fmDate
    rw [h1, h2]
    simp [h3]
  constructor
  · unfold lambdaGncd; rw [hfm]
  · unfold mainGncd; rw [hfm]

/-- Witness for `C7_amended`: a Daily-Notes path and old timestamps do not
matter once a well-formed `date:` line exists. -/
theorem C7_amended_witness :
    lambdaGncd "/tmp/vault/Periodic/Daily Notes/2021-09-01 (Wednesday).md"
      fmContent stNoBirth = .ok "2021-07-23" :=
  (C7_amended "/tmp/vault/Periodic/Daily Notes/2021-09-01 (Wednesday).md"
    fmContent "date: 2021-07-23" "2021-07-23" stNoBirth
    (by decide) (by decide) (by decide)).1

/-! ## C4: error handling in the convert pass -/

/-- C4 (counterexample): the convert loops (`lambda.py` 166-177, `main.py`
123-134) have no per-note exception handling.  On a vault with a first note
whose `date:` line has no second token and a healthy second note, both
embedded convert passes die with `IndexError` leaving the tree untouched:
the second note is still a `.md` file with no JSON sibling, so processing did
not "continue converting the remaining notes". -/
theorem C4_counterexample :
    convertFS lambdaNoteToJson alwaysOk "/tmp/vault" exBadThenGood =
      (exBadThenGood, some .indexError) ∧
    convertFS mainNoteToJson alwaysOk "vault" exBadThenGood =
      (exBadThenGood, some .indexError) ∧
    (∃ it ∈ exBadThenGood, it.path = ["b.md"]) ∧
    (∀ it ∈ exBadThenGood, it.path ≠ ["b.json"]) := by
  refine ⟨by decide, by decide, by decide, by decide⟩

/-- C4 (amended): an exception raised by `note_to_json` (in either tier of
the date inference, or anywhere in the record construction) while the
convert walk processes a note aborts the *entire* convert pass at that
point: the walk returns immediately with the error, the tree exactly as it
was before that note (so no partial record and no JSON sibling for the
failing note, and the note itself not deleted), and none of the remaining
notes is processed. -/
theorem C4_amended (ntj : NtjFun) (wk : String → Bool) (root : String) (fs : FS)
    (p : FPath) (c : String) (st : Stat) (rest : List Item) (e : PyErr)
    (h : ntj (pyJoin (root :: p)) c st = .error e) :
    convertGo ntj wk root fs (⟨p, .file c st⟩ :: rest) = (fs, some e) := by
  simp [convertGo, convertNote, h]

/-- Witness for `C4_amended`: the failing note of `exBadThenGood`, with the
healthy note still pending. -/
theorem C4_amended_witness :
    convertGo lambdaNoteToJson alwaysOk "/tmp/vault" exBadThenGood
      (mdNotes exBadThenGood) = (exBadThenGood, some .indexError) := by
  have h := C4_amended lambdaNoteToJson alwaysOk "/tmp/vault" exBadThenGood
    ["a.md"] ("---" ++ "\n" ++ "date:") stNoBirth
    [⟨["b.md"], .file fmContent stNoBirth⟩] .indexError (by decide)
  have hsnap : mdNotes exBadThenGood =
      ⟨["a.md"], Node.file ("---" ++ "\n" ++ "date:") stNoBirth⟩ ::
        [⟨["b.md"], Node.file fmContent stNoBirth⟩] := by decide
  rw [hsnap, h]

/-! ## C8: delete only after a persisted JSON replacement -/

/-- Every item of `removeAt fs p` has a path other than `p`. -/
theorem removeAt_path_ne (fs : FS) (p : FPath) :
    ∀ it ∈ removeAt fs p, it.path ≠ p := by
  intro it hit
  have := List.of_mem_filter hit
  simpa using of_decide_eq_true this

/-- `upsertFile` really leaves the written file in the tree. -/
theorem upsertFile_mem (fs : FS) (q : FPath) (c : String) (st : Stat) :
    ∃ it ∈ upsertFile fs q c st, it.path = q ∧ it.node = .file c st := by
  unfold upsertFile
  by_cases hq : fs.any (fun it => decide (it.path = q)) = true
  · rw [if_pos hq]
    obtain ⟨it0, hmem, hdec⟩ := List.any_eq_true.mp hq
    refine ⟨⟨q, .file c st⟩, ?_, rfl, rfl⟩
    have hmm := List.mem_map_of_mem
      (fun it => if it.path = q then (⟨q, .file c st⟩ : Item) else it) hmem
    simp only [] at hmm
    rwa [if_pos (of_decide_eq_true hdec)] at hmm
  · rw [if_neg hq]
    exact ⟨⟨q, .file c st⟩, by simp, rfl, rfl⟩

/-- C8 (confirmed): in the convert loop the source note is deleted only
after its JSON sibling was successfully written.  If the `open`/`json.dump`
of the sibling fails (write oracle `false`), the walk aborts with the tree
exactly as it was — the note is not deleted, so a note is never deleted
without a persisted replacement.  If the write succeeds, the walk continues
on a tree in which the note is gone and the JSON sibling is present — the
two do not coexist past the note's transformation step. -/
theorem C8_delete_after_write (ntj : NtjFun) (wk : String → Bool) (root : String)
    (fs : FS) (p : FPath) (c : String) (st : Stat) (rest : List Item) (r : NoteRecord)
    (hok : ntj (pyJoin (root :: p)) c st = .ok r) :
    (wk (pyJoin (root :: p)) = false →
      convertGo ntj wk root fs (⟨p, .file c st⟩ :: rest) = (fs, some .writeError)) ∧
    (wk (pyJoin (root :: p)) = true →
      convertGo ntj wk root fs (⟨p, .file c st⟩ :: rest) =
        convertGo ntj wk root
          (removeAt (upsertFile fs (jsonSiblingPath p) (encodeRecord r) st) p) rest ∧
      (∀ it ∈ removeAt (upsertFile fs (jsonSiblingPath p) (encodeRecord r) st) p,
        it.path ≠ p) ∧
      (jsonSiblingPath p ≠ p →
        ∃ it ∈ removeAt (upsertFile fs (jsonSiblingPath p) (encodeRecord r) st) p,
          it.path = jsonSiblingPath p ∧ it.node = .file (encodeRecord r) st)) := by
  constructor
  · intro hw
    simp [convertGo, convertNote, hok, hw]
  · intro hw
    refine ⟨by simp [convertGo, convertNote, hok, hw], removeAt_path_ne _ _, ?_⟩
    intro hne
    obtain ⟨it, hmem, hpath, hnode⟩ :=
      upsertFile_mem fs (jsonSiblingPath p) (encodeRecord r) st
    refine ⟨it, ?_, hpath, hnode⟩
    unfold removeAt
    exact List.mem_filter.mpr ⟨hmem, decide_eq_true (hpath ▸ hne)⟩

/-- Witness for `C8_delete_after_write`: a failing write aborts the pass with
the tree unchanged. -/
theorem C8_delete_after_write_witness :
    convertGo lambdaNoteToJson (fun _ => false) "/tmp/vault" exPipeFS
      (mdNotes exPipeFS) = (exPipeFS, some .writeError) := by
  have h := C8_delete_after_write lambdaNoteToJson (fun _ => false) "/tmp/vault"
    exPipeFS ["A", "sub", "y.md"] fmContent stNoBirth []
    { title := "y", created_date := "2021-07-23", modified_date := "2021-07-11"
      modified_time := "2021-07-11 10:40:00", path := "tmp/vault/A/sub"
      folder := "sub", content := fmContent } (by decide)
  have hsnap : mdNotes exPipeFS = [⟨["A", "sub", "y.md"], Node.file fmContent stNoBirth⟩] := by
    decide
  rw [hsnap]
  exact h.1 rfl

/-! ## C2: the two entry points compared -/

/-- C2 (counterexample): on the same extracted tree (one note `A/sub/y.md`
with a front-matter date), the two entry points do **not** produce the same
final directory contents.  `main()` (no collapse pass) leaves
`A/sub/y.json` nested, with record fields `path = "sub"`, `folder = ""`;
`lambda_handler` flattens the tree (no item under `A/sub` remains) and its
record carries `path = "tmp/vault/A/sub"`, `folder = "sub"`. -/
theorem C2_counterexample :
    (mainPipeline exPipeFS).2 = none ∧ (lambdaPipeline exPipeFS).2 = none ∧
    (mainPipeline exPipeFS).1 ≠ (lambdaPipeline exPipeFS).1 ∧
    (∃ it ∈ (mainPipeline exPipeFS).1, it.path = ["A", "sub", "y.json"]) ∧
    (∀ it ∈ (lambdaPipeline exPipeFS).1, it.path ≠ ["A", "sub", "y.json"]) ∧
    mainNotePath "vault/A/sub/y.md" = "sub" ∧ mainNoteFolder "vault/A/sub/y.md" = "" ∧
    lambdaNotePath "/tmp/vault/A/sub/y.md" = "tmp/vault/A/sub" ∧
    lambdaNoteFolder "/tmp/vault/A/sub/y.md" = "sub" := by
  exact ⟨by decide, by decide, by decide, by decide, by decide, by decide, by decide,
    by decide, by decide⟩

/-- When the two `get_note_creation_date`s both succeed on the same input
they agree: tiers 1 and 2 are shared code, and in tier 3 the two files
cannot both succeed (with a retrievable birthtime `lambda.py` dies on its
tuple slip, without one `main.py` dies on the missing attribute). -/
theorem gncd_agree (p c : String) (st : Stat) (cd1 cd2 : String)
    (hm : mainGncd p c st = .ok cd1) (hl : lambdaGncd p c st = .ok cd2) :
    cd1 = cd2 := by
  unfold mainGncd at hm
  unfold lambdaGncd at hl
  cases hfm : fmDate c with
  | some r =>
    rw [hfm] at hm hl
    rw [hm] at hl
    exact (Except.ok.injEq _ _).mp hl
  | none =>
    rw [hfm] at hm hl
    cases hper : periodicDate p with
    | some r =>
      rw [hper] at hm hl
      rw [hm] at hl
      exact (Except.ok.injEq _ _).mp hl
    | none =>
      rw [hper] at hm hl
      unfold mainStatsDate at hm
      unfold lambdaStatsDate at hl
      cases hb : st.birthtime with
      | none => rw [hb] at hm; exact absurd hm (by simp)
      | some b => rw [hb] at hl; exact absurd hl (by simp)

/-- C2 (amended): the two entry points share the prune pass and the shape of
the convert pass, but they are not behaviourally equal: only
`lambda_handler` runs the collapse pass, and the two `note_to_json`s derive
`path`/`folder` differently.  What does hold: whenever both `note_to_json`s
succeed on the same note (same full path string, content and stat), the
resulting records agree on every field except possibly `path` and
`folder`. -/
theorem C2_amended (p c : String) (st : Stat) (r1 r2 : NoteRecord)
    (h1 : mainNoteToJson p c st = .ok r1) (h2 : lambdaNoteToJson p c st = .ok r2) :
    r1.title = r2.title ∧ r1.created_date = r2.created_date ∧
    r1.modified_date = r2.modified_date ∧ r1.modified_time = r2.modified_time ∧
    r1.content = r2.content := by
  cases hm : mainGncd p c st with
  | error e =>
    rw [mainNoteToJson, hm] at h1
    exact absurd h1 (by simp [Bind.bind, Except.bind])
  | ok cd1 =>
    cases hl : lambdaGncd p c st with
    | error e =>
      rw [lambdaNoteToJson, hl] at h2
      exact absurd h2 (by simp [Bind.bind, Except.bind])
    | ok cd2 =>
      rw [mainNoteToJson, hm] at h1
      rw [lambdaNoteToJson, hl] at h2
      simp only [Bind.bind, Except.bind, Except.ok.injEq] at h1 h2
      subst h1
      subst h2
      exact ⟨rfl, gncd_agree p c st cd1 cd2 hm hl, rfl, rfl, rfl⟩

/-- Witness for `C2_amended` on a note with a front-matter date. -/
theorem C2_amended_witness :
    ∃ r1 r2 : NoteRecord,
      mainNoteToJson "vault/A/x.md" fmContent stNoBirth = .ok r1 ∧
      lambdaNoteToJson "vault/A/x.md" fmContent stNoBirth = .ok r2 ∧
      r1.title = r2.title ∧ r1.created_date = r2.created_date ∧
      r1.modified_date = r2.modified_date ∧ r1.modified_time = r2.modified_time ∧
      r1.content = r2.content := by
  refine ⟨{ title := "x", created_date := "2021-07-23", modified_date := "2021-07-11"
            modified_time := "2021-07-11 10:40:00", path := "A"
            folder := "", content := fmContent },
          { title := "x", created_date := "2021-07-23", modified_date := "2021-07-11"
            modified_time := "2021-07-11 10:40:00", path := "A"
            folder := "A", content := fmContent }, by decide, by decide, ?_⟩
  exact C2_amended "vault/A/x.md" fmContent stNoBirth _ _ (by decide) (by decide)

/-! ## C1: the `path` and `folder` fields -/

/-- A single-character split never returns the empty list. -/
theorem splitChAux_ne_nil (sep : Char) : ∀ l, splitChAux sep l ≠ [] := by
  intro l
  induction l with
  | nil => simp [splitChAux]
  | cons c cs ih =>
    simp only [splitChAux]
    by_cases h : c = sep
    · simp [h]
    · simp only [h, if_false]
      cases hr : splitChAux sep cs with
      | nil => exact absurd hr ih
      | cons a b => simp

/-- Pieces of a single-character split do not contain the separator. -/
theorem splitChAux_no_sep (sep : Char) :
    ∀ l, ∀ pc ∈ splitChAux sep l, sep ∉ pc := by
  intro l
  induction l with
  | nil => intro pc h; simp [splitChAux] at h; simp [h]
  | cons c cs ih =>
    intro pc h
    simp only [splitChAux] at h
    by_cases hc : c = sep
    · rw [if_pos hc] at h
      rcases List.mem_cons.mp h with h1 | h1
      · simp [h1]
      · exact ih pc h1
    · rw [if_neg hc] at h
      cases hr : splitChAux sep cs with
      | nil => exact absurd hr (splitChAux_ne_nil sep cs)
      | cons a b =>
        rw [hr] at h
        rcases List.mem_cons.mp h with h1 | h1
        · subst h1
          intro hmem
          rcases List.mem_cons.mp hmem with h2 | h2
          · exact hc h2.symm
          · exact ih a (hr ▸ List.mem_cons_self a b) h2
        · exact ih pc (hr ▸ List.mem_cons.mpr (Or.inr h1))

/-- Splitting a separator-free list returns the list whole. -/
theorem splitChAux_of_no_sep (sep : Char) :
    ∀ l, sep ∉ l → splitChAux sep l = [l] := by
  intro l
  induction l with
  | nil => intro _; rfl
  | cons c cs ih =>
    intro h
    have hc : ¬ c = sep := fun hh => h (hh ▸ List.mem_cons_self c cs)
    have hcs : sep ∉ cs := fun hh => h (List.mem_cons.mpr (Or.inr hh))
    simp only [splitChAux, hc, if_false, ih hcs]

/-- Splitting at the first separator occurrence peels off the head piece. -/
theorem splitChAux_append (sep : Char) :
    ∀ xs ys, sep ∉ xs →
      splitChAux sep (xs ++ sep :: ys) = xs :: splitChAux sep ys := by
  intro xs
  induction xs with
  | nil => intro ys _; simp [splitChAux]
  | cons c cs ih =>
    intro ys h
    have hc : ¬ c = sep := fun hh => h (hh ▸ List.mem_cons_self c cs)
    have hcs : sep ∉ cs := fun hh => h (List.mem_cons.mpr (Or.inr hh))
    simp only [List.cons_append, splitChAux, hc, if_false]
    rw [show cs.append (sep :: ys) = cs ++ sep :: ys from rfl, ih ys hcs]

/-- `"/".join` inverts the slash split: characters of `pyJoin (s :: rest)`. -/
theorem toList_pyJoin_cons (s : String) (rest : List String) (h : rest ≠ []) :
    (pyJoin (s :: rest)).toList = s.toList ++ '/' :: (pyJoin rest).toList := by
  cases rest with
  | nil => exact absurd rfl h
  | cons r t => simp [pyJoin]

/-- A join of non-empty segments is non-empty. -/
theorem toList_pyJoin_ne_nil (segs : List String) (hne : segs ≠ [])
    (h : ∀ s ∈ segs, s.toList ≠ []) : (pyJoin segs).toList ≠ [] := by
  cases segs with
  | nil => exact absurd rfl hne
  | cons s rest =>
    cases rest with
    | nil => exact h s (List.mem_cons_self _ _)
    | cons r t =>
      rw [toList_pyJoin_cons s (r :: t) (by simp)]
      intro hh
      exact (h s (List.mem_cons_self _ _)) (List.append_eq_nil.mp hh).1

/-- The last character of a join of non-empty slash-free segments is not a
slash. -/
theorem getLast?_pyJoin_ne_slash (segs : List String) (hne : segs ≠ [])
    (h : ∀ s ∈ segs, s.toList ≠ [] ∧ '/' ∉ s.toList) :
    (pyJoin segs).toList.getLast? ≠ some '/' := by
  induction segs with
  | nil => exact absurd rfl hne
  | cons s rest ih =>
    cases rest with
    | nil =>
      intro hh
      have hmem : '/' ∈ s.toList := by
        have := List.getLast?_eq_getLast _ ((h s (List.mem_cons_self _ _)).1)
        rw [show pyJoin [s] = s from rfl] at hh
        rw [this] at hh
        exact (Option.some.injEq _ _).mp hh ▸ List.getLast_mem _
      exact (h s (List.mem_cons_self _ _)).2 hmem
    | cons r t =>
      rw [toList_pyJoin_cons s (r :: t) (by simp)]
      have hrt : (pyJoin (r :: t)).toList ≠ [] :=
        toList_pyJoin_ne_nil (r :: t) (by simp)
          (fun x hx => (h x (List.mem_cons.mpr (Or.inr hx))).1)
      rw [List.getLast?_append_of_ne_nil _ (by simp)]
      rw [show ('/' :: (pyJoin (r :: t)).toList) = ['/'] ++ (pyJoin (r :: t)).toList from rfl,
        List.getLast?_append_of_ne_nil _ hrt]
      exact ih (by simp) (fun x hx => h x (List.mem_cons.mpr (Or.inr hx)))

/-- `pyJoin` on a cons with a non-empty tail. -/
theorem pyJoin_cons (x : String) (l : List String) (h : l ≠ []) :
    pyJoin (x :: l) = x ++ "/" ++ pyJoin l := by
  cases l with
  | nil => exact absurd rfl h
  | cons a b => rfl

/-- Splitting a slash-join of slash-free segments recovers the segments. -/
theorem pySplit_pyJoin (segs : List String) (hne : segs ≠ [])
    (h : ∀ s ∈ segs, '/' ∉ s.toList) : pySplit '/' (pyJoin segs) = segs := by
  induction segs with
  | nil => exact absurd rfl hne
  | cons s rest ih =>
    cases rest with
    | nil =>
      show pySplit '/' s = [s]
      unfold pySplit
      rw [splitChAux_of_no_sep '/' s.toList (h s (List.mem_cons_self _ _))]
      rfl
    | cons r t =>
      unfold pySplit
      rw [toList_pyJoin_cons s (r :: t) (by simp),
        splitChAux_append '/' s.toList _ (h s (List.mem_cons_self _ _))]
      have ihh := ih (by simp) (fun x hx => h x (List.mem_cons.mpr (Or.inr hx)))
      unfold pySplit at ihh
      simp only [List.map_cons, ihh]
      rfl

/-- Two strings with the same characters are equal. -/
theorem toList_inj {a b : String} (h : a.toList = b.toList) : a = b := by
  cases a
  cases b
  simp only [String.toList] at h
  rw [h]

/-- Characters of `mk u ++ "/" ++ Y`. -/
theorem mkAppendToList (u : List Char) (Y : String) :
    ((String.mk u) ++ "/" ++ Y).toList = u ++ '/' :: Y.toList := by
  have h0 : ((String.mk u) ++ "/" ++ Y).toList = (u ++ ['/']) ++ Y.toList := rfl
  rw [h0]
  simp

/-- Character-level inverse: joining the pieces of a slash split restores the
original characters. -/
theorem pyJoin_splitChAux (cs : List Char) :
    (pyJoin ((splitChAux '/' cs).map (fun l => String.mk l))).toList = cs := by
  induction cs with
  | nil => rfl
  | cons c cs ih =>
    by_cases hc : c = '/'
    · subst hc
      have hsp : splitChAux '/' ('/' :: cs) = [] :: splitChAux '/' cs := by
        simp [splitChAux]
      have hne : (splitChAux '/' cs).map (fun l => String.mk l) ≠ [] := by
        intro hh
        exact splitChAux_ne_nil '/' cs (List.map_eq_nil_iff.mp hh)
      rw [hsp, List.map_cons, pyJoin_cons _ _ hne]
      show ('/' :: (pyJoin ((splitChAux '/' cs).map (fun l => String.mk l))).toList) = _
      rw [ih]
    · have hsp : splitChAux '/' (c :: cs) =
          match splitChAux '/' cs with
          | h :: t => (c :: h) :: t
          | [] => [[c]] := by
        simp [splitChAux, hc]
      cases hr : splitChAux '/' cs with
      | nil => exact absurd hr (splitChAux_ne_nil '/' cs)
      | cons a b =>
        rw [hr] at hsp ih
        rw [List.map_cons] at ih
        cases b with
        | nil =>
          rw [hsp, List.map_cons, List.map_nil]
          show (c :: a) = c :: cs
          have : a = cs := by simpa using ih
          rw [this]
        | cons b1 b2 =>
          rw [hsp, List.map_cons]
          rw [pyJoin_cons _ _ (by simp), mkAppendToList] at ih
          rw [pyJoin_cons _ _ (by simp), mkAppendToList, List.cons_append, ih]

/-- Joining the pieces of a slash split restores the original string
(Python: `"/".join(s.split("/")) == s`). -/
theorem pyJoin_pySplit (s : String) : pyJoin (pySplit '/' s) = s :=
  toList_inj (pyJoin_splitChAux s.toList)

/-- `findIdx?` finds nothing when nothing matches. -/
theorem findIdx?_no_match (p : Char → Bool) :
    ∀ l : List Char, (∀ c ∈ l, p c = false) → ∀ i, l.findIdx? p i = none := by
  intro l
  induction l with
  | nil => intro _ _; rfl
  | cons c cs ih =>
    intro h i
    have hc : p c = false := h c (List.mem_cons_self _ _)
    show (if p c then some i else cs.findIdx? p (i + 1)) = none
    rw [hc, if_neg (by simp)]
    exact ih (fun x hx => h x (List.mem_cons.mpr (Or.inr hx))) (i + 1)

/-- `findIdx?` finds the first match. -/
theorem findIdx?_first (p : Char → Bool) (x : Char) (hx : p x = true) :
    ∀ xs : List Char, (∀ c ∈ xs, p c = false) →
      ∀ (ys : List Char) (i : Nat), (xs ++ x :: ys).findIdx? p i = some (i + xs.length) := by
  intro xs
  induction xs with
  | nil =>
    intro _ ys i
    show (if p x then some i else ys.findIdx? p (i + 1)) = some (i + 0)
    rw [hx, if_pos rfl]
    simp
  | cons c cs ih =>
    intro h ys i
    have hc : p c = false := h c (List.mem_cons_self _ _)
    show (if p c then some i else (cs ++ x :: ys).findIdx? p (i + 1)) = some (i + (c :: cs).length)
    rw [hc, if_neg (by simp), ih (fun z hz => h z (List.mem_cons.mpr (Or.inr hz))) ys (i + 1)]
    simp only [List.length_cons, Option.some.injEq]
    omega

/-- `os.path.dirname` of `a + "/" + f` is `a`, when `a` is non-empty and does
not end in a slash and `f` is slash-free. -/
theorem pyDirname_concat (a f : String) (ha : a.toList ≠ [])
    (hlast : a.toList.getLast? ≠ some '/') (hf : '/' ∉ f.toList) :
    pyDirname (a ++ "/" ++ f) = a := by
  have hcs : (a ++ "/" ++ f).toList = a.toList ++ '/' :: f.toList := by
    have h0 : (a ++ "/" ++ f).toList = (a.toList ++ ['/']) ++ f.toList := rfl
    rw [h0]
    simp
  have hrev : (a ++ "/" ++ f).toList.reverse = f.toList.reverse ++ '/' :: a.toList.reverse := by
    rw [hcs]
    simp
  have hfind : (a ++ "/" ++ f).toList.reverse.findIdx? (fun c => c = '/') =
      some f.toList.length := by
    rw [hrev]
    have := findIdx?_first (fun c => c = '/') '/' (by simp) f.toList.reverse
      (fun c hc => by
        simp only [decide_eq_false_iff_not]
        intro hcc
        exact hf (hcc ▸ List.mem_reverse.mp hc)) a.toList.reverse 0
    rw [this]
    simp
  have hlen : (a ++ "/" ++ f).toList.length = a.toList.length + 1 + f.toList.length := by
    rw [hcs]; simp; omega
  have htake : (a ++ "/" ++ f).toList.take ((a ++ "/" ++ f).toList.length - f.toList.length) =
      a.toList ++ ['/'] := by
    rw [hcs]
    have h1 : (a.toList ++ '/' :: f.toList).length - f.toList.length = a.toList.length + 1 := by
      simp only [List.length_append, List.length_cons]
      omega
    rw [h1, List.take_append 1]
    rfl
  have hlastc : ∃ c, a.toList.getLast? = some c ∧ c ≠ '/' := by
    cases hgl : a.toList.getLast? with
    | none => exact absurd (List.getLast?_eq_none_iff.mp hgl) ha
    | some c => exact ⟨c, rfl, fun hc => hlast (hc ▸ hgl)⟩
  obtain ⟨c0, hc0, hc0ne⟩ := hlastc
  have hall : (a.toList ++ ['/']).all (fun c => c = '/') = false := by
    rw [List.all_eq_false]
    refine ⟨c0, List.mem_append_left _ ?_, by simpa using hc0ne⟩
    have := List.getLast?_eq_getLast a.toList ha
    rw [this] at hc0
    exact (Option.some.injEq _ _).mp hc0 ▸ List.getLast_mem ha
  have hstrip : rstripSlash (a.toList ++ ['/']) = a.toList := by
    unfold rstripSlash
    rw [List.reverse_append]
    have hrw : (['/'] : List Char).reverse ++ a.toList.reverse = '/' :: a.toList.reverse := rfl
    rw [hrw, List.dropWhile_cons]
    rw [if_pos (by simp)]
    cases har : a.toList.reverse with
    | nil => exact absurd (by simpa using har) ha
    | cons r rs =>
      have hr : r = c0 := by
        have := List.head?_reverse a.toList
        rw [har] at this
        simp only [List.head?_cons] at this
        rw [hc0] at this
        exact (Option.some.injEq _ _).mp this.symm |>.symm
      rw [List.dropWhile_cons, if_neg (by simp [hr, hc0ne])]
      rw [← har, List.reverse_reverse]
  simp only [pyDirname, hfind]
  rw [htake, if_neg (fun hcond => by rw [hall] at hcond; exact absurd hcond (by simp)), hstrip]
  rfl

/-- Elements of a slash split are slash-free strings. -/
theorem pySplit_no_slash (s q : String) (hq : q ∈ pySplit '/' s) : '/' ∉ q.toList := by
  unfold pySplit at hq
  obtain ⟨pc, hpc, hmk⟩ := List.mem_map.mp hq
  have hql : q.toList = pc := by rw [← hmk]; rfl
  rw [hql]
  exact splitChAux_no_sep '/' s.toList pc hpc

/-- A slash split is never the empty list. -/
theorem pySplit_ne_nil (sep : Char) (s : String) : pySplit sep s ≠ [] := by
  unfold pySplit
  intro h
  exact splitChAux_ne_nil sep s.toList (List.map_eq_nil_iff.mp h)

/-- `main.py`'s `folder` field is the empty string for every note path:
`path` is a single slash-free segment, so `os.path.dirname(path)` is `""`,
whose split ends in `""`. -/
theorem mainNoteFolder_empty (p : String) : mainNoteFolder p = "" := by
  have hq : '/' ∉ (mainNotePath p).toList := by
    unfold mainNotePath
    cases hL : pySplit '/' (pyDirname p) with
    | nil => exact absurd hL (pySplit_ne_nil '/' (pyDirname p))
    | cons x xs =>
      have hmem : (x :: xs).getLastD "" ∈ x :: xs := by
        rw [List.getLastD_eq_getLast?, List.getLast?_eq_getLast (x :: xs) (by simp)]
        simp only [Option.getD_some]
        exact List.getLast_mem _
      exact pySplit_no_slash (pyDirname p) _ (hL ▸ hmem)
  have hdir : pyDirname (mainNotePath p) = "" := by
    have hnone : List.findIdx? (fun c => decide (c = '/')) (mainNotePath p).toList.reverse = none :=
      findIdx?_no_match _ _ (fun c hc => by
        simp only [decide_eq_false_iff_not]
        intro hcc
        exact hq (hcc ▸ List.mem_reverse.mp hc)) 0
    simp only [pyDirname, hnone]
  unfold mainNoteFolder
  rw [hdir]
  rfl

/-- C1 (counterexample): for the note `vault/A/x.md` of a vault rooted at
`vault`, the containing directory relative to the vault root is `A`, so the
claim requires `path = "A"` and `folder = "A"` (non-empty, as the note is
not at the vault root).  `main.py` produces `folder = ""` (its `folder` is
always empty), and `lambda.py`, which processes notes under `/tmp/vault`,
produces `path = "tmp/vault/A"` for the corresponding note, not `A`. -/
theorem C1_counterexample :
    mainNotePath "vault/A/x.md" = "A" ∧
    mainNoteFolder "vault/A/x.md" = "" ∧
    ("" = "A" → False) ∧
    lambdaNotePath "/tmp/vault/A/x.md" = "tmp/vault/A" ∧
    ("tmp/vault/A" = "A" → False) ∧
    mainNotePath "vault/B/sub/z.md" = "sub" ∧
    ("sub" = "B/sub" → False) := by
  exact ⟨by decide, by decide, by decide, by decide, by decide, by decide, by decide⟩

/-- Appending one segment to a non-empty join. -/
theorem pyJoin_concat (xs : List String) (f : String) (h : xs ≠ []) :
    pyJoin (xs ++ [f]) = pyJoin xs ++ "/" ++ f := by
  induction xs with
  | nil => exact absurd rfl h
  | cons x rest ih =>
    cases rest with
    | nil => rfl
    | cons r t =>
      rw [List.cons_append, pyJoin_cons x ((r :: t) ++ [f]) (by simp),
        ih (by simp), pyJoin_cons x (r :: t) (by simp)]
      simp [String.append_assoc]

/-- C1 (amended): write the note path as `root/seg₁/…/segₙ/fname` (slash-free
non-empty segments).  `lambda.py` derives `path` by dropping the first
segment and the filename — this equals the vault-relative directory only
when the path is vault-relative with a single-segment root — and `folder` as
the final segment of `path`, empty exactly when `path` is empty.  `main.py`
derives `path` as just the name of the note's immediate parent directory
(the vault root's own name when the note sits at the root) and `folder` is
always the empty string. -/
theorem C1_amended (noteFile root fname : String) (segs : List String)
    (hsplit : pySplit '/' noteFile = root :: segs ++ [fname])
    (hroot : root.toList ≠ [] ∧ '/' ∉ root.toList)
    (hseg : ∀ s ∈ segs, s.toList ≠ [] ∧ '/' ∉ s.toList)
    (hf : '/' ∉ fname.toList) :
    lambdaNotePath noteFile = pyJoin segs ∧
    (segs = [] → lambdaNoteFolder noteFile = "") ∧
    (segs ≠ [] → lambdaNoteFolder noteFile = segs.getLastD "" ∧
      lambdaNoteFolder noteFile ≠ "") ∧
    mainNotePath noteFile = (root :: segs).getLastD "" ∧
    mainNoteFolder noteFile = "" := by
  have hpath : lambdaNotePath noteFile = pyJoin segs := by
    unfold lambdaNotePath
    rw [hsplit]
    simp
  refine ⟨hpath, ?_, ?_, ?_, mainNoteFolder_empty noteFile⟩
  · intro hnil
    subst hnil
    unfold lambdaNoteFolder
    rw [hpath]
    rfl
  · intro hne
    have hfol : lambdaNoteFolder noteFile = segs.getLastD "" := by
      unfold lambdaNoteFolder
      rw [hpath, pySplit_pyJoin segs hne (fun s hs => (hseg s hs).2)]
    refine ⟨hfol, ?_⟩
    rw [hfol]
    have hmem : segs.getLastD "" ∈ segs := by
      rw [List.getLastD_eq_getLast?, List.getLast?_eq_getLast segs hne]
      simp only [Option.getD_some]
      exact List.getLast_mem _
    intro hempty
    exact (hseg _ hmem).1 (by rw [hempty]; rfl)
  · have hgood : ∀ s ∈ root :: segs, s.toList ≠ [] ∧ '/' ∉ s.toList := by
      intro s hs
      rcases List.mem_cons.mp hs with h1 | h1
      · exact h1 ▸ hroot
      · exact hseg s h1
    have hnf : noteFile = pyJoin ((root :: segs) ++ [fname]) := by
      have := pyJoin_pySplit noteFile
      rw [hsplit] at this
      exact this.symm
    rw [hnf, pyJoin_concat (root :: segs) fname (by simp)]
    unfold mainNotePath
    rw [pyDirname_concat (pyJoin (root :: segs)) fname
      (toList_pyJoin_ne_nil (root :: segs) (by simp) (fun s hs => (hgood s hs).1))
      (getLast?_pyJoin_ne_slash (root :: segs) (by simp) hgood) hf]
    rw [pySplit_pyJoin (root :: segs) (by simp) (fun s hs => (hgood s hs).2)]

/-- Witness for `C1_amended` at the vault-relative note `vault/A/x.md`. -/
theorem C1_amended_witness :
    lambdaNotePath "vault/A/x.md" = "A" ∧ lambdaNoteFolder "vault/A/x.md" = "A" ∧
    mainNotePath "vault/A/x.md" = "A" ∧ mainNoteFolder "vault/A/x.md" = "" := by
  have h := C1_amended "vault/A/x.md" "vault" "x.md" ["A"]
    (by decide) (by decide) (by decide) (by decide)
  exact ⟨h.1, (h.2.2.1 (by simp)).1, h.2.2.2.1, h.2.2.2.2⟩

/-! ## C3 and C9: the collapse pass -/

/-- Paths produced by the `rglob` of a first-level folder `n` start with `n`
and are at least two segments long. -/
theorem rglobDotted_spec (fs : FS) (n : String) :
    ∀ p ∈ rglobDotted fs [n], p.headD "" = n ∧ 2 ≤ p.length := by
  intro p hp
  unfold rglobDotted at hp
  obtain ⟨it, hit, hcond⟩ := List.mem_filterMap.mp hp
  by_cases hc : [n] <+: it.path ∧ [n] ≠ it.path ∧ dotted (it.path.getLastD "") = true
  · rw [if_pos (decide_eq_true hc)] at hcond
    have hpeq : p = it.path := (Option.some.injEq _ _).mp hcond.symm
    obtain ⟨t, ht⟩ := hc.1
    subst hpeq
    rw [← ht]
    cases t with
    | nil => exact absurd (by simpa using ht) hc.2.1
    | cons a b => exact ⟨rfl, by simp⟩
  · rw [if_neg (by simpa using hc)] at hcond
    exact absurd hcond (by simp)

/-- The image of a moved item. -/
theorem moveSubtree_mem_moved (fs : FS) (src dst : FPath) (it : Item) (hit : it ∈ fs)
    (hp : src <+: it.path) :
    (⟨dst ++ it.path.drop src.length, it.node⟩ : Item) ∈ moveSubtree fs src dst := by
  unfold moveSubtree
  exact List.mem_map.mpr ⟨it, hit, by rw [if_pos hp]⟩

/-- Items outside the moved subtree stay put. -/
theorem moveSubtree_mem_fixed (fs : FS) (src dst : FPath) (it : Item) (hit : it ∈ fs)
    (hp : ¬ src <+: it.path) : it ∈ moveSubtree fs src dst := by
  unfold moveSubtree
  exact List.mem_map.mpr ⟨it, hit, by rw [if_neg hp]⟩

/-- Every item of a moved tree is the image of an original item. -/
theorem moveSubtree_mem_elim (fs : FS) (src dst : FPath) (it' : Item)
    (hit' : it' ∈ moveSubtree fs src dst) :
    ∃ it ∈ fs, (src <+: it.path ∧ it' = ⟨dst ++ it.path.drop src.length, it.node⟩) ∨
      (¬ src <+: it.path ∧ it' = it) := by
  unfold moveSubtree at hit'
  obtain ⟨it, hit, hfi⟩ := List.mem_map.mp hit'
  by_cases hp : src <+: it.path
  · exact ⟨it, hit, Or.inl ⟨hp, by rw [← hfi, if_pos hp]⟩⟩
  · exact ⟨it, hit, Or.inr ⟨hp, by rw [← hfi, if_neg hp]⟩⟩

/-- A single guarded `shutil.move` preserves: all depth-one items being
directories, ancestor closure, the presence of the first-level folder, and
every item whose path does not start with `n`. -/
theorem tryMove_spec (fs : FS) (src : FPath) (n : String)
    (hsrc2 : 2 ≤ src.length) (hsrch : src.headD "" = n)
    (h1 : dirsAtTop fs) (h2 : ancClosed fs)
    (hdirn : ∃ it ∈ fs, it.path = [n] ∧ it.node = Node.dir) :
    dirsAtTop (tryMove fs src n) ∧ ancClosed (tryMove fs src n) ∧
    (∃ it ∈ tryMove fs src n, it.path = [n] ∧ it.node = Node.dir) ∧
    (∀ it : Item, it.path.headD "" ≠ n → (it ∈ tryMove fs src n ↔ it ∈ fs)) := by
  have hnp1 : ¬ src <+: [n] := by
    intro hpre
    have := hpre.length_le
    simp at this
    omega
  have hprefix_head : ∀ q : FPath, src <+: q → q.headD "" = n := by
    intro q hq
    cases hs : src with
    | nil => rw [hs] at hsrc2; simp at hsrc2
    | cons s0 t0 =>
      obtain ⟨t, ht⟩ := hq
      rw [hs] at hsrch ht
      rw [← ht]
      simpa using hsrch
  by_cases hex : (fs.any fun it => decide (it.path = src)) = true
  · by_cases hdst : (fs.any fun it => decide (it.path = [n, src.getLastD ""])) = true
    · have htm : tryMove fs src n = fs := by
        unfold tryMove
        rw [if_neg (by omega), hex]
        simp only [Bool.not_true]
        rw [if_neg (by simp), if_pos hdst]
      rw [htm]
      exact ⟨h1, h2, hdirn, fun _ _ => Iff.rfl⟩
    · have htm : tryMove fs src n = moveSubtree fs src [n, src.getLastD ""] := by
        unfold tryMove
        rw [if_neg (by omega), hex]
        simp only [Bool.not_true]
        rw [if_neg (by simp), if_neg hdst]
      rw [htm]
      have hndir : (⟨[n], Node.dir⟩ : Item) ∈ moveSubtree fs src [n, src.getLastD ""] := by
        obtain ⟨it, hit, hp, hn⟩ := hdirn
        have hiteq : it = ⟨[n], Node.dir⟩ := by
          cases it
          simp_all
        rw [hiteq] at hit
        exact moveSubtree_mem_fixed fs src _ _ hit hnp1
      refine ⟨?_, ?_, ⟨⟨[n], Node.dir⟩, hndir, rfl, rfl⟩, ?_⟩
      · -- dirsAtTop
        intro it' hit' hlen
        obtain ⟨it, hit, hcase⟩ := moveSubtree_mem_elim fs src _ it' hit'
        rcases hcase with ⟨hp, heq⟩ | ⟨hp, heq⟩
        · rw [heq] at hlen
          simp at hlen
        · rw [heq] at hlen ⊢
          exact h1 it hit hlen
      · -- ancClosed
        intro it' hit' k hk hk0
        have hklt := List.mem_range.mp hk
        obtain ⟨it, hit, hcase⟩ := moveSubtree_mem_elim fs src _ it' hit'
        rcases hcase with ⟨hp, heq⟩ | ⟨hp, heq⟩
        · obtain ⟨t, ht⟩ := hp
          have hdropt : it.path.drop src.length = t := by
            rw [← ht]
            exact List.drop_left src t
          by_cases hk1 : k = 1
          · refine ⟨⟨[n], Node.dir⟩, hndir, ?_, rfl⟩
            rw [heq, hdropt, hk1]
            rfl
          · have hk2 : 2 ≤ k := by omega
            have hitlen : it'.path.length = 2 + t.length := by
              rw [heq, hdropt]
              simp only [List.length_append, List.length_cons, List.length_nil]
            have htk : it'.path.take k = [n, src.getLastD ""] ++ t.take (k - 2) := by
              rw [heq, hdropt]
              have hk' : ([n, src.getLastD ""] : FPath).length + (k - 2) = k := by
                simp only [List.length_cons, List.length_nil]
                omega
              nth_rewrite 1 [← hk']
              exact List.take_append (k - 2)
            have hjlt : src.length + (k - 2) < it.path.length := by
              rw [← ht]
              rw [hitlen] at hklt
              simp only [List.length_append]
              omega
            obtain ⟨jt, hjt, hjp, hjd⟩ := h2 it hit (src.length + (k - 2))
              (List.mem_range.mpr hjlt) (by omega)
            have hjpath : jt.path = src ++ t.take (k - 2) := by
              rw [hjp, ← ht]
              exact List.take_append (k - 2)
            have hjpre : src <+: jt.path := by
              rw [hjpath]
              exact List.prefix_append _ _
            refine ⟨⟨[n, src.getLastD ""] ++ jt.path.drop src.length, jt.node⟩,
              moveSubtree_mem_moved fs src _ jt hjt hjpre, ?_, hjd⟩
            show [n, src.getLastD ""] ++ jt.path.drop src.length = it'.path.take k
            rw [hjpath, List.drop_left, htk]
        · rw [heq] at hk ⊢
          obtain ⟨jt, hjt, hjp, hjd⟩ := h2 it hit k hk hk0
          have hjfix : ¬ src <+: jt.path := by
            intro hpre
            exact hp (hpre.trans (hjp ▸ List.take_prefix k it.path))
          exact ⟨jt, moveSubtree_mem_fixed fs src _ jt hjt hjfix, hjp, hjd⟩
      · -- untouched
        intro it hhead
        constructor
        · intro hit'
          obtain ⟨it0, hit0, hcase⟩ := moveSubtree_mem_elim fs src _ it hit'
          rcases hcase with ⟨hp, heq⟩ | ⟨hp, heq⟩
          · exfalso
            apply hhead
            rw [heq]
            rfl
          · exact heq ▸ hit0
        · intro hitf
          exact moveSubtree_mem_fixed fs src _ it hitf
            (fun hpre => hhead (hprefix_head it.path hpre))
  · have htm : tryMove fs src n = fs := by
      unfold tryMove
      rw [if_neg (by omega), Bool.eq_false_iff.mpr hex]
      simp
    rw [htm]
    exact ⟨h1, h2, hdirn, fun _ _ => Iff.rfl⟩

/-- The whole sequence of guarded moves of one first-level folder preserves
the `tryMove_spec` invariants. -/
theorem foldMoves_spec (n : String) (paths : List FPath)
    (hp : ∀ p ∈ paths, p.headD "" = n ∧ 2 ≤ p.length) :
    ∀ fs : FS, dirsAtTop fs → ancClosed fs →
      (∃ it ∈ fs, it.path = [n] ∧ it.node = Node.dir) →
      dirsAtTop (paths.foldl (fun acc p => tryMove acc p n) fs) ∧
      ancClosed (paths.foldl (fun acc p => tryMove acc p n) fs) ∧
      (∃ it ∈ paths.foldl (fun acc p => tryMove acc p n) fs,
        it.path = [n] ∧ it.node = Node.dir) ∧
      (∀ it : Item, it.path.headD "" ≠ n →
        (it ∈ paths.foldl (fun acc p => tryMove acc p n) fs ↔ it ∈ fs)) := by
  induction paths with
  | nil => exact fun fs h1 h2 h3 => ⟨h1, h2, h3, fun _ _ => Iff.rfl⟩
  | cons p rest ih =>
    intro fs h1 h2 h3
    have hpp := hp p (List.mem_cons_self _ _)
    have step := tryMove_spec fs p n hpp.2 hpp.1 h1 h2 h3
    have hrest := ih (fun q hq => hp q (List.mem_cons.mpr (Or.inr hq)))
      (tryMove fs p n) step.1 step.2.1 step.2.2.1
    refine ⟨hrest.1, hrest.2.1, hrest.2.2.1, ?_⟩
    intro it hhead
    exact (hrest.2.2.2 it hhead).trans (step.2.2.2 it hhead)

/-- Membership in the result of the directory clean-up of folder `n`. -/
theorem cleanFolder_mem (g : FS) (n : String) (it : Item) :
    it ∈ cleanFolder g n ↔ it ∈ g ∧
      ¬ ∃ jt ∈ g, jt.node = Node.dir ∧ jt.path.length = 2 ∧
        jt.path.headD "" = n ∧ jt.path <+: it.path := by
  unfold cleanFolder
  rw [List.mem_filter]
  constructor
  · rintro ⟨hmem, hpred⟩
    refine ⟨hmem, ?_⟩
    intro ⟨jt, hjt, hcond⟩
    have : g.any (fun jt => decide (jt.node = Node.dir ∧ jt.path.length = 2 ∧
        jt.path.headD "" = n ∧ jt.path <+: it.path)) = true :=
      List.any_eq_true.mpr ⟨jt, hjt, decide_eq_true hcond⟩
    rw [this] at hpred
    simp at hpred
  · rintro ⟨hmem, hnex⟩
    refine ⟨hmem, ?_⟩
    have : g.any (fun jt => decide (jt.node = Node.dir ∧ jt.path.length = 2 ∧
        jt.path.headD "" = n ∧ jt.path <+: it.path)) = false := by
      rw [← Bool.not_eq_true, List.any_eq_true]
      intro ⟨jt, hjt, hdec⟩
      exact hnex ⟨jt, hjt, of_decide_eq_true hdec⟩
    rw [this]
    simp

/-- After the clean-up of first-level folder `n`: ancestor closure survives,
items outside `n` are untouched, and nothing under `n` deeper than one level
— and no directory directly under `n` — remains. -/
theorem cleanFolder_spec (g : FS) (n : String) (h2 : ancClosed g) :
    (∀ it ∈ cleanFolder g n, it ∈ g) ∧
    ancClosed (cleanFolder g n) ∧
    (∀ it ∈ cleanFolder g n, it.path.headD "" = n →
      it.path.length ≤ 2 ∧ (it.path.length = 2 → it.node ≠ Node.dir)) ∧
    (∀ it : Item, it.path.headD "" ≠ n → (it ∈ cleanFolder g n ↔ it ∈ g)) := by
  refine ⟨fun it hit => ((cleanFolder_mem g n it).mp hit).1, ?_, ?_, ?_⟩
  · -- ancClosed
    intro it hit k hk hk0
    obtain ⟨hmem, hnex⟩ := (cleanFolder_mem g n it).mp hit
    obtain ⟨jt, hjt, hjp, hjd⟩ := h2 it hmem k hk hk0
    refine ⟨jt, ?_, hjp, hjd⟩
    rw [cleanFolder_mem]
    refine ⟨hjt, ?_⟩
    intro ⟨dd, hdd, hddir, hdlen, hdhead, hdpre⟩
    exact hnex ⟨dd, hdd, hddir, hdlen, hdhead,
      hdpre.trans (hjp ▸ List.take_prefix k it.path)⟩
  · -- flattened under n
    intro it hit hhead
    obtain ⟨hmem, hnex⟩ := (cleanFolder_mem g n it).mp hit
    cases hp : it.path with
    | nil => exact ⟨by simp, fun hlen2 => by simp at hlen2⟩
    | cons a b =>
      have hrest : it.path = n :: b := by
        rw [hp] at hhead
        simp only [List.headD_cons] at hhead
        rw [hp, hhead]
      constructor
      · by_contra hgt
        have hlen3 : 3 ≤ it.path.length := by rw [hp]; simpa using hgt
        obtain ⟨jt, hjt, hjp, hjd⟩ := h2 it hmem 2
          (List.mem_range.mpr (by omega)) (by omega)
        apply hnex
        refine ⟨jt, hjt, hjd, ?_, ?_, hjp ▸ List.take_prefix 2 it.path⟩
        · rw [hjp, List.length_take]
          omega
        · rw [hjp, hrest]
          cases b with
          | nil => rw [hrest] at hlen3; simp at hlen3
          | cons r rs => rfl
      · intro hlen2 hdir
        apply hnex
        refine ⟨it, hmem, hdir, ?_, hhead, List.prefix_refl _⟩
        rw [hp]
        exact hlen2
  · -- untouched outside n
    intro it hhead
    rw [cleanFolder_mem]
    constructor
    · exact fun h => h.1
    · intro hmem
      refine ⟨hmem, ?_⟩
      intro ⟨jt, hjt, hjdir, hjlen, hjhead, hjpre⟩
      apply hhead
      obtain ⟨t, ht⟩ := hjpre
      cases hjp : jt.path with
      | nil => rw [hjp] at hjlen; simp at hjlen
      | cons a b =>
        rw [hjp] at hjhead ht
        rw [← ht]
        simpa using hjhead

/-- The collapse loop: on a tree whose depth-one items are all directories
and whose ancestors are present, it never aborts, and afterwards every item
whose first segment was in the processed name list is at depth ≤ 2 with no
directories at depth 2. -/
theorem collapseGo_spec (names : List String) :
    ∀ fs : FS, dirsAtTop fs → ancClosed fs →
      (∀ it ∈ fs, 2 ≤ it.path.length →
        it.path.headD "" ∈ names ∨ (it.path.length = 2 ∧ it.node ≠ Node.dir)) →
      (collapseGo names fs).2 = none ∧
      dirsAtTop (collapseGo names fs).1 ∧
      ancClosed (collapseGo names fs).1 ∧
      (∀ it ∈ (collapseGo names fs).1, it.path.length ≤ 2 ∧
        (it.path.length = 2 → it.node ≠ Node.dir)) := by
  induction names with
  | nil =>
    intro fs h1 h2 h3
    refine ⟨rfl, h1, h2, ?_⟩
    intro it hit
    by_cases hlen : 2 ≤ it.path.length
    · rcases h3 it hit hlen with hmem | ⟨hl2, hnd⟩
      · exact absurd hmem (by simp)
      · exact ⟨by omega, fun _ => hnd⟩
    · exact ⟨by omega, fun hh => absurd hh (by omega)⟩
  | cons n rest ih =>
    intro fs h1 h2 h3
    by_cases hb1 : (fs.any fun it => decide (it.path = [n] ∧ it.node = Node.dir)) = true
    · obtain ⟨it0, hit0, hdec⟩ := List.any_eq_true.mp hb1
      have hdirn : ∃ it ∈ fs, it.path = [n] ∧ it.node = Node.dir :=
        ⟨it0, hit0, of_decide_eq_true hdec⟩
      have hmoves := foldMoves_spec n (rglobDotted fs [n]) (rglobDotted_spec fs n)
        fs h1 h2 hdirn
      set g := (rglobDotted fs [n]).foldl (fun acc p => tryMove acc p n) fs with hg
      have hcg : collapseGo (n :: rest) fs = collapseGo rest (cleanFolder g n) := by
        simp only [collapseGo]
        rw [if_pos hb1, hg]
      rw [hcg]
      have hclean := cleanFolder_spec g n hmoves.2.1
      apply ih (cleanFolder g n) ?_ hclean.2.1 ?_
      · -- dirsAtTop after the step
        intro it hit hlen
        exact hmoves.1 it (hclean.1 it hit) hlen
      · -- heads of deep items lie in rest
        intro it hit hlen
        by_cases hhead : it.path.headD "" = n
        · right
          have hflat := hclean.2.2.1 it hit hhead
          exact ⟨by omega, hflat.2 (by omega)⟩
        · have hitfs : it ∈ fs := by
            have h1m := (hclean.2.2.2 it hhead).mp hit
            exact (hmoves.2.2.2 it hhead).mp h1m
          rcases h3 it hitfs hlen with hmem | hflat
          · rcases List.mem_cons.mp hmem with he | he
            · exact absurd he hhead
            · exact Or.inl he
          · exact Or.inr hflat
    · by_cases hb2 : (fs.any fun it => decide (it.path = [n] ∧ it.node ≠ Node.dir)) = true
      · exfalso
        obtain ⟨it0, hit0, hdec⟩ := List.any_eq_true.mp hb2
        have hc := of_decide_eq_true hdec
        exact hc.2 (h1 it0 hit0 (by rw [hc.1]; rfl))
      · have hcg : collapseGo (n :: rest) fs = collapseGo rest fs := by
          simp only [collapseGo]
          rw [if_neg hb1, if_neg hb2]
        rw [hcg]
        apply ih fs h1 h2
        intro it hit hlen
        rcases h3 it hit hlen with hmem | hflat
        · rcases List.mem_cons.mp hmem with he | he
          · exfalso
            obtain ⟨t, ht⟩ : ∃ t, it.path = n :: t := by
              cases hp : it.path with
              | nil => rw [hp] at hlen; simp at hlen
              | cons a b =>
                rw [hp] at he
                simp only [List.headD_cons] at he
                exact ⟨b, by rw [he]⟩
            obtain ⟨jt, hjt, hjp, hjd⟩ := h2 it hit 1
              (List.mem_range.mpr (by omega)) (by omega)
            apply hb1
            refine List.any_eq_true.mpr ⟨jt, hjt, decide_eq_true ⟨?_, hjd⟩⟩
            rw [hjp, ht]
            rfl
          · exact Or.inl he
        · exact Or.inr hflat

/-- A depth-one item's name is listed by `os.listdir` of the vault root. -/
theorem mem_childNames_root (fs : FS) (x : String) (node : Node)
    (h : (⟨[x], node⟩ : Item) ∈ fs) : x ∈ childNames fs [] := by
  unfold childNames
  exact List.mem_filterMap.mpr ⟨⟨[x], node⟩, h, by simp⟩

/-- In an ancestor-closed tree, the first segment of every nested item is
one of the names the collapse pass will process. -/
theorem collapse_initial_heads (fs : FS) (h2 : ancClosed fs) :
    ∀ it ∈ fs, 2 ≤ it.path.length →
      it.path.headD "" ∈ childNames fs [] ∨
        (it.path.length = 2 ∧ it.node ≠ Node.dir) := by
  intro it hit hlen
  left
  obtain ⟨jt, hjt, hjp, hjd⟩ := h2 it hit 1 (List.mem_range.mpr (by omega)) (by omega)
  obtain ⟨a, b, hab⟩ : ∃ a b, it.path = a :: b := by
    cases hp : it.path with
    | nil => rw [hp] at hlen; simp at hlen
    | cons a b => exact ⟨a, b, rfl⟩
  have hjp1 : jt.path = [a] := by rw [hjp, hab]; rfl
  have hhead : it.path.headD "" = a := by rw [hab]; rfl
  rw [hhead]
  have hjitem : jt = ⟨[a], Node.dir⟩ := by
    cases jt
    simp_all
  rw [hjitem] at hjt
  exact mem_childNames_root fs a Node.dir hjt

/-- C9 (confirmed): on a well-formed extracted tree (no regular file directly
at the vault root — else the pass dies on `os.listdir` of a file — and
ancestors present), the collapse pass completes, and afterwards the tree is
at most two levels deep: depth-one items are directories, depth-two items
are not directories (every surviving file is a direct child of a first-level
folder).  In particular, on the spec's own example `root/A/x.md`,
`root/A/sub/y.md` with no name collision, both files end up direct children
of `A` and `A/sub` no longer exists. -/
theorem C9_collapse_flattens (fs : FS) (h1 : dirsAtTop fs) (h2 : ancClosed fs) :
    ((collapseFS fs).2 = none ∧
      (∀ it ∈ (collapseFS fs).1, it.path.length ≤ 2 ∧
        (it.path.length = 1 → it.node = Node.dir) ∧
        (it.path.length = 2 → it.node ≠ Node.dir))) ∧
    collapseFS exNoCollision =
      ([⟨["A"], .dir⟩, ⟨["A", "x.md"], .file "cx" stNoBirth⟩,
        ⟨["A", "y.md"], .file "cy" stNoBirth⟩], none) := by
  constructor
  · have hgo := collapseGo_spec (childNames fs []) fs h1 h2 (collapse_initial_heads fs h2)
    unfold collapseFS
    exact ⟨hgo.1, fun it hit =>
      ⟨(hgo.2.2.2 it hit).1, fun hl1 => hgo.2.1 it hit hl1, (hgo.2.2.2 it hit).2⟩⟩
  · decide

/-- Witness for `C9_collapse_flattens` on the spec's example tree. -/
theorem C9_collapse_flattens_witness :
    (collapseFS exNoCollision).2 = none ∧
    ∀ it ∈ (collapseFS exNoCollision).1, it.path.length ≤ 2 :=
  ⟨((C9_collapse_flattens exNoCollision (by decide) (by decide)).1).1,
    fun it hit =>
      (((C9_collapse_flattens exNoCollision (by decide) (by decide)).1).2 it hit).1⟩

/-- C3 (counterexample): `A/x.json` exists both as a direct child of `A` and
nested at `A/sub/x.json`.  The nested file's move fails (`shutil.Error`:
destination exists), the failure is tolerated (the pass completes, returning
no error, and the direct child survives untouched), but after the pass the
file does **not** still exist at its original nested location — the
`rmtree` of `A`'s subdirectories deleted it; its content survives nowhere. -/
theorem C3_counterexample :
    collapseFS exCollision =
      ([⟨["A"], .dir⟩, ⟨["A", "x.json"], .file "top copy" stNoBirth⟩], none) ∧
    (⟨["A", "sub", "x.json"], .file "nested copy" stNoBirth⟩ : Item) ∈ exCollision ∧
    (∀ it ∈ (collapseFS exCollision).1, it.path ≠ ["A", "sub", "x.json"]) ∧
    (∀ it ∈ (collapseFS exCollision).1, it.node ≠ .file "nested copy" stNoBirth) := by
  exact ⟨by decide, by decide, by decide, by decide⟩

/-- C3 (amended): a failed move is tolerated per-file and the collapse pass
continues and completes (no abort), but the failed file does not stay at its
original nested location: the pass then deletes every subdirectory of the
first-level folder, so after the pass no item at any nested location (depth
three or more) exists at all. -/
theorem C3_amended (fs : FS) (h1 : dirsAtTop fs) (h2 : ancClosed fs) :
    (collapseFS fs).2 = none ∧
    (∀ it ∈ (collapseFS fs).1, ¬ 3 ≤ it.path.length) := by
  have hgo := collapseGo_spec (childNames fs []) fs h1 h2 (collapse_initial_heads fs h2)
  unfold collapseFS
  refine ⟨hgo.1, fun it hit => ?_⟩
  have := (hgo.2.2.2 it hit).1
  omega

/-- Witness for `C3_amended` on the collision tree. -/
theorem C3_amended_witness :
    (collapseFS exCollision).2 = none ∧
    (∀ it ∈ (collapseFS exCollision).1, ¬ 3 ≤ it.path.length) :=
  C3_amended exCollision (by decide) (by decide)
